import Mathlib

/-!
Shallow embedding of the `pubmed-authors-fetcher` core
(`src/services/pubmedService.js` and `src/utils/apiUtils.js`) and proofs
about its specified behaviour.

Modelling conventions:
* Machine strings are Lean `String`s; JavaScript truthiness of an optional
  string field (`undefined`, missing, or `""` are falsy) is `strTruthy`.
* xml2js values that may be a single object or an array are `OneOrMany`.
* Optional-chaining paths (`a?.b?.c`) are collapsed to a single `Option`
  field holding the leaf value: absence of any link is `none`.
* The HTTP layer is an oracle function.  For the retry client the oracle
  maps an attempt index to that attempt's outcome; for pagination it maps
  a `retstart` offset to the parsed `eSearchResult.IdList.Id` field of the
  page response; for the batch fetcher it maps the id chunk to the parsed
  `PubmedArticleSet.PubmedArticle` field.
* Loops are embedded structurally with an explicit fuel argument so that
  every definition evaluates inside the kernel; the fuel chosen at each
  entry point dominates the loop's iteration count, and every fuel-zero
  fallback coincides with the corresponding loop-exit value, so the fuel
  never changes observable behaviour for positive page / batch sizes.
-/

/-- JavaScript truthiness of an optional string field: `undefined` (here
`none`) and the empty string are falsy. -/
def strTruthy : Option String → Bool
  | none => false
  | some s => s ≠ ""

/-- JavaScript `x || ''` applied to an optional string: both `none` and
`""` collapse to `""`. -/
def jsOrEmpty (o : Option String) : String :=
  o.getD ""

/-- Checks that the first list is a prefix of the second
(character-by-character, as JavaScript `String.prototype.startsWith`). -/
def hasPrefixChars : List Char → List Char → Bool
  | [], _ => true
  | _ :: _, [] => false
  | n :: ns, h :: hs => n == h && hasPrefixChars ns hs

/-- Checks that the first list occurs as a contiguous run inside the
second (substring search over the character list). -/
def hasSubstrChars (needle : List Char) : List Char → Bool
  | [] => needle.isEmpty
  | h :: hs => hasPrefixChars needle (h :: hs) || hasSubstrChars needle hs

/-- JavaScript `hay.includes(needle)`: substring containment. -/
def strIncludes (hay needle : String) : Bool :=
  hasSubstrChars needle.toList hay.toList

/-- A whitespace character as stripped by `String.prototype.trim`. -/
def isWsChar (c : Char) : Bool :=
  c == ' ' || c == '\t' || c == '\n' || c == '\r' || c == '\x0b' || c == '\x0c'

/-- JavaScript `s.toLowerCase()`, modelled character-wise. -/
def strLower (s : String) : String := String.mk (s.data.map Char.toLower)

/-- JavaScript `s.trim()`: strip whitespace from both ends. -/
def strTrim (s : String) : String :=
  String.mk (((s.data.dropWhile isWsChar).reverse.dropWhile isWsChar).reverse)

/-- An xml2js field that is a single value or an array of values
(`explicitArray: false` yields a scalar for one element, an array for
several). -/
inductive OneOrMany (α : Type) where
  | one : α → OneOrMany α
  | many : List α → OneOrMany α
  deriving DecidableEq, Repr

/-- Normalising a scalar-or-array field to a sequence, the
`Array.isArray(x) ? x : [x]` idiom. -/
def OneOrMany.toList : OneOrMany α → List α
  | .one a => [a]
  | .many l => l

/-- JavaScript truthiness of a present `IdList.Id` value: a single empty
string is falsy, any array (even empty) is truthy, as is a non-empty
string. -/
def omStrFalsy : OneOrMany String → Bool
  | .one s => s = ""
  | .many _ => false

/-- An `ArticleTitle` value as decoded by xml2js: either a plain string
or an object whose primary text lives in the `_` field. -/
inductive JsTitle where
  | str : String → JsTitle
  | obj : Option String → JsTitle
  deriving DecidableEq, Repr

/-- JavaScript truthiness of a present title value: an empty string is
falsy, every object is truthy. -/
def titleTruthy : JsTitle → Bool
  | .str s => s ≠ ""
  | .obj _ => true

/-- `normalizeTitle` from `pubmedService.js`: for an object take its `_`
field, falling back to `Object.prototype.toString` (always the truthy
string `"[object Object]"`, so the final `|| ''` is dead); then trim and
lowercase.  For a string, `title || ''` only collapses `""` to itself. -/
def normalizeTitle : JsTitle → String
  | .obj u => strLower (strTrim (if strTruthy u then u.getD "" else "[object Object]"))
  | .str s => strLower (strTrim s)

/-- `validateTitle` from `pubmedService.js`: some configured keyword,
lowercased, occurs in the normalized title.  The keyword list
`SEARCH_TERMS.KEYWORDS` is passed explicitly. -/
def validateTitle (keywords : List String) (title : JsTitle) : Bool :=
  let normalized := normalizeTitle title
  keywords.any fun keyword => strIncludes normalized (strLower keyword)

/-- One `AffiliationInfo` entry: an optional `Affiliation` string. -/
structure AffInfo where
  affiliation : Option String
  deriving DecidableEq, Repr

/-- One `Author` entry of `AuthorList.Author`. -/
structure Author where
  lastName : Option String
  foreName : Option String
  collectiveName : Option String
  affiliationInfo : Option (OneOrMany AffInfo)
  deriving DecidableEq, Repr

/-- A decoded `PubmedArticle`, collapsed to the fields the service reads:
`MedlineCitation.Article.ArticleTitle`,
`MedlineCitation.Article.Journal.JournalIssue.PubDate.Year` and
`MedlineCitation.Article.AuthorList.Author`. -/
structure JsArticle where
  articleTitle : Option JsTitle
  pubYear : Option String
  authorList : Option (OneOrMany Author)
  deriving DecidableEq, Repr

/-- `formatAuthorName` from `pubmedService.js`: given-name + last-name
when both are truthy, else last name, else collective name, else `""`. -/
def formatAuthorName (au : Author) : String :=
  if strTruthy au.lastName && strTruthy au.foreName then
    jsOrEmpty au.foreName ++ " " ++ jsOrEmpty au.lastName
  else if strTruthy au.lastName then jsOrEmpty au.lastName
  else if strTruthy au.collectiveName then jsOrEmpty au.collectiveName
  else ""

/-- `validateArticleData` from `pubmedService.js`: the title must be
present and truthy, and its normalization must pass `validateTitle`
(the source re-normalizes the already-normalized string).  The
complex-structure branch only logs a warning and does not affect the
result. -/
def validateArticleData (keywords : List String) (a : JsArticle) : Bool :=
  match a.articleTitle with
  | none => false
  | some t =>
    if titleTruthy t then validateTitle keywords (JsTitle.str (normalizeTitle t))
    else false

/-- One value of the author aggregate: the JS `Set`s are modelled as
insertion-ordered duplicate-free lists. -/
structure AuthorEntry where
  affiliations : List String
  titles : List String
  deriving DecidableEq, Repr

/-- The author aggregate, a JS `Map` modelled as an insertion-ordered
association list. -/
abbrev AuthorMap := List (String × AuthorEntry)

/-- JS `Set.prototype.add`: append the element unless already present. -/
def setAdd (s : List String) (x : String) : List String :=
  if x ∈ s then s else s ++ [x]

/-- JS `Map.prototype.has` / `get` on the association list: first entry
with the given key. -/
def amFind (m : AuthorMap) (k : String) : Option AuthorEntry :=
  match m with
  | [] => none
  | (k', e) :: rest => if k' = k then some e else amFind rest k

/-- Mutating the entry object stored under a key: rewrite the first entry
with that key in place (a JS `Map` keeps the insertion position). -/
def amUpdate (m : AuthorMap) (k : String) (f : AuthorEntry → AuthorEntry) : AuthorMap :=
  match m with
  | [] => []
  | (k', e) :: rest => if k' = k then (k', f e) :: rest else (k', e) :: amUpdate rest k f

/-- `addAffiliations` from `pubmedService.js`: normalize
`author.AffiliationInfo` to a sequence and add every truthy
`Affiliation` string to the set. -/
def addAffiliations (au : Author) (affiliationSet : List String) : List String :=
  match au.affiliationInfo with
  | none => affiliationSet
  | some infos =>
    infos.toList.foldl
      (fun s info => if strTruthy info.affiliation then setAdd s (jsOrEmpty info.affiliation) else s)
      affiliationSet

/-- The per-author body of the `forEach` inside `extractAuthorInfo`: skip
empty formatted names, create a fresh entry on first sight, then add the
title-year string and the author's affiliations to the entry's sets. -/
def processAuthor (titleWithYear : String) (m : AuthorMap) (au : Author) : AuthorMap :=
  let fullName := formatAuthorName au
  if fullName = "" then m
  else
    let m1 := if (amFind m fullName).isSome then m else m ++ [(fullName, ⟨[], []⟩)]
    amUpdate m1 fullName fun e =>
      { affiliations := addAffiliations au e.affiliations,
        titles := setAdd e.titles titleWithYear }

/-- The per-article body of `extractAuthorInfo`: articles failing
`validateArticleData` contribute nothing; otherwise build the
`"title (year)"` string (year defaulting to `""`) and fold the authors,
articles without an author list contributing nothing. -/
def processArticle (keywords : List String) (m : AuthorMap) (a : JsArticle) : AuthorMap :=
  if validateArticleData keywords a then
    match a.articleTitle with
    | none => m
    | some t =>
      let title := normalizeTitle t
      let year := jsOrEmpty a.pubYear
      let titleWithYear := title ++ " (" ++ year ++ ")"
      match a.authorList with
      | none => m
      | some authors => authors.toList.foldl (processAuthor titleWithYear) m
  else m

/-- `extractAuthorInfo` from `pubmedService.js`: fold the article list
into the author aggregate, starting from the empty map. -/
def extractAuthorInfo (keywords : List String) (articles : List JsArticle) : AuthorMap :=
  articles.foldl (processArticle keywords) []

/-- The authors of an article as a plain list (empty when
`AuthorList?.Author` is absent). -/
def authorsOf (a : JsArticle) : List Author :=
  match a.authorList with
  | none => []
  | some authors => authors.toList

/-- Observable events of the HTTP layer: a request being issued and a
fixed-duration wait (`await delay(delayMs)`). -/
inductive Ev where
  | req : Ev
  | wait : Ev
  deriving DecidableEq, Repr

/-- The loop of `fetchWithRetry` from `apiUtils.js`.  `oracle i` is the
outcome of the `i`-th request to the url.  The first component traces
requests and waits in order; the second is the returned body (`some`),
`none` for the unreachable fall-off-the-loop `undefined`, or the thrown
error.  Per source: the try-block waits before every attempt except the
first, a failed non-final attempt waits again in the catch-block, and the
final failed attempt re-throws without waiting.  Structural fuel:
`retries - attempt` bounds the remaining iterations, and fuel zero can
only be reached with `attempt ≥ retries`, where the loop also exits. -/
def fwrGo (oracle : Nat → Except ε α) (retries : Nat) : Nat → Nat → List Ev × Except ε (Option α)
  | _, 0 => ([], Except.ok none)
  | attempt, fuel+1 =>
    if attempt < retries then
      let pre : List Ev := if 0 < attempt then [Ev.wait] else []
      match oracle attempt with
      | Except.ok b => (pre ++ [Ev.req], Except.ok (some b))
      | Except.error e =>
        if attempt + 1 = retries then (pre ++ [Ev.req], Except.error e)
        else
          let rest := fwrGo oracle retries (attempt + 1) fuel
          (pre ++ [Ev.req, Ev.wait] ++ rest.1, rest.2)
    else ([], Except.ok none)

/-- `fetchWithRetry(url, retries = 3, delayMs)` from `apiUtils.js`,
starting at attempt 0. -/
def fetchWithRetry (oracle : Nat → Except ε α) (retries : Nat) : List Ev × Except ε (Option α) :=
  fwrGo oracle retries 0 retries

/-- The two hard failures `searchArticles` can raise: an exhausted retry
budget propagating from `fetchWithRetry`, and the final
"No article IDs found in the search response" error. -/
inductive SearchErr where
  | requestError : SearchErr
  | noResults : SearchErr
  deriving DecidableEq, Repr

/-- Observable outcome of one `searchArticles` run: the `retstart`
offsets fetched in order, the accumulated `allIds`, and the raised
error, if any (`none` means the id list is returned). -/
structure SearchRun where
  offsets : List Nat
  ids : List String
  err : Option SearchErr
  deriving DecidableEq, Repr

/-- Exit of the pagination loop: `if (!allIds.length) throw`, else return
the accumulated ids. -/
def finishRun (acc : List String) (tr : List Nat) : SearchRun :=
  { offsets := tr, ids := acc, err := if acc.isEmpty then some SearchErr.noResults else none }

/-- The `while (retStart < MAX_RESULTS)` loop of `searchArticles` from
`pubmedService.js`.  `oracle off` is the parsed
`eSearchResult?.IdList?.Id` field of the page fetched at
`retstart = off` (`Except.error` when `fetchWithRetry` exhausted its
attempts).  In source order: check the cap, fetch (offset recorded),
break on a falsy id field, normalize to a list and append, break on a
short page, advance the offset (the inter-page delay is not traced).
Structural fuel: with a positive page size `maxR + 1` dominates the
iteration count, and the fuel-zero fallback returns the same loop-exit
value as the cap check. -/
def searchLoop (oracle : Nat → Except Unit (Option (OneOrMany String))) (maxR retmax : Nat) :
    Nat → Nat → List String → List Nat → SearchRun
  | 0, _, acc, tr => finishRun acc tr
  | fuel+1, retStart, acc, tr =>
    if retStart < maxR then
      match oracle retStart with
      | Except.error _ => { offsets := tr ++ [retStart], ids := acc, err := some SearchErr.requestError }
      | Except.ok none => finishRun acc (tr ++ [retStart])
      | Except.ok (some om) =>
        if omStrFalsy om then finishRun acc (tr ++ [retStart])
        else
          let ids := om.toList
          let acc2 := acc ++ ids
          if ids.length < retmax then finishRun acc2 (tr ++ [retStart])
          else searchLoop oracle maxR retmax fuel (retStart + retmax) acc2 (tr ++ [retStart])
    else finishRun acc tr

/-- `searchArticles` from `pubmedService.js`, parametrized by
`MAX_RESULTS`, `DEFAULT_RETMAX` and the page oracle. -/
def searchArticles (maxR retmax : Nat) (oracle : Nat → Except Unit (Option (OneOrMany String))) :
    SearchRun :=
  searchLoop oracle maxR retmax (maxR + 1) 0 [] []

/-- The page oracle induced by an attempt-level oracle: each page request
goes through `fetchWithRetry` with 3 attempts, as in the source.  The
`Except.ok none` case (the loop falling through, impossible for a
positive retry count) is mapped to an absent id list. -/
def pageOracleOfFetch (att : Nat → Nat → Except Unit (Option (OneOrMany String))) :
    Nat → Except Unit (Option (OneOrMany String)) :=
  fun off =>
    match (fetchWithRetry (att off) 3).2 with
    | Except.error e => Except.error e
    | Except.ok (some r) => Except.ok r
    | Except.ok none => Except.ok none

/-- The chunking loop of `fetchArticleDetails`:
`for (let i = 0; i < ids.length; i += BATCH_SIZE) batches.push(ids.slice(i, i + BATCH_SIZE))`,
embedded as take/drop with structural fuel (the input length bounds the
iteration count for a positive batch size). -/
def chunkGo (bs : Nat) : Nat → List α → List (List α)
  | 0, _ => []
  | _, [] => []
  | fuel+1, x :: xs => (x :: xs).take bs :: chunkGo bs fuel ((x :: xs).drop bs)

/-- The batches list built by `fetchArticleDetails` for a given
`BATCH_SIZE`. -/
def chunkList (bs : Nat) (ids : List α) : List (List α) :=
  chunkGo bs ids.length ids

/-- The records contributed by one batch response: the parsed
`PubmedArticleSet?.PubmedArticle` field normalized to a sequence,
nothing when absent (`if (fetched)` guard). -/
def respList : Option (OneOrMany JsArticle) → List JsArticle
  | none => []
  | some om => om.toList

/-- `fetchArticleDetails(ids)` from `pubmedService.js` with every batch
request succeeding: fold the batches in order, appending each batch's
normalized records (the inter-batch delay is not traced). -/
def fetchArticleDetails (bs : Nat) (oracle : List String → Option (OneOrMany JsArticle))
    (ids : List String) : List JsArticle :=
  (chunkList bs ids).foldl (fun acc c => acc ++ respList (oracle c)) []

/-- Modelled from the spec: the top-level pipeline that invokes
`searchArticles` and feeds its result to `fetchArticleDetails` is not
under `src/` (only the service is); per spec §2/§7 a search failure
aborts the run before any detail fetch.  The second component counts the
detail-fetch requests issued. -/
def pipeline (maxR retmax bs : Nat) (pageOracle : Nat → Except Unit (Option (OneOrMany String)))
    (detailOracle : List String → Option (OneOrMany JsArticle)) :
    Except SearchErr (List JsArticle) × Nat :=
  let run := searchArticles maxR retmax pageOracle
  match run.err with
  | some e => (Except.error e, 0)
  | none => (Except.ok (fetchArticleDetails bs detailOracle run.ids), (chunkList bs run.ids).length)

/-- A simulated search endpoint on which every page is full: 500
identifiers at every offset. -/
def fullOracle500 : Nat → Except Unit (Option (OneOrMany String)) :=
  fun _ => Except.ok (some (OneOrMany.many (List.replicate 500 "x")))

/-- Distinct identifier strings `start, start+1, …, start+n-1`. -/
def mkIds (start n : Nat) : List String :=
  (List.range n).map fun i => Nat.repr (start + i)

/-- A simulated search endpoint returning pages of sizes 500, 500, 237
at offsets 0, 500, 1000 and nothing beyond. -/
def pagesC6 : Nat → Except Unit (Option (OneOrMany String)) :=
  fun off =>
    if off = 0 then Except.ok (some (OneOrMany.many (mkIds 0 500)))
    else if off = 500 then Except.ok (some (OneOrMany.many (mkIds 500 500)))
    else if off = 1000 then Except.ok (some (OneOrMany.many (mkIds 1000 237)))
    else Except.ok none

/-- A search endpoint whose response never carries an `IdList` (no
results at any offset). -/
def absentO : Nat → Except Unit (Option (OneOrMany String)) := fun _ => Except.ok none

/-- An attempt oracle on which every request fails. -/
def failO : Nat → Except Unit Unit := fun _ => Except.error ()

/-- An attempt oracle failing twice and succeeding on the third attempt. -/
def succO : Nat → Except Unit String :=
  fun i => if i < 2 then Except.error () else Except.ok "body"

/-- An attempt-level search oracle: the page at offset 0 is full, every
request for any other offset fails on every attempt. -/
def attC4 : Nat → Nat → Except Unit (Option (OneOrMany String)) :=
  fun off _ =>
    if off = 0 then Except.ok (some (OneOrMany.many (List.replicate 500 "x")))
    else Except.error ()

/-- A detail oracle returning no records for any batch. -/
def detailNone : List String → Option (OneOrMany JsArticle) := fun _ => none

/-- The author of the spec's end-to-end example: Jane Smith at MIT. -/
def auJane : Author :=
  { lastName := some "Smith", foreName := some "Jane", collectiveName := none,
    affiliationInfo := some (OneOrMany.one ⟨some "MIT"⟩) }

/-- An author record with only a last name. -/
def auLastOnly : Author :=
  { lastName := some "Smith", foreName := none, collectiveName := none, affiliationInfo := none }

/-- An author record with only a collective name. -/
def auColl : Author :=
  { lastName := none, foreName := none, collectiveName := some "The Gene Consortium",
    affiliationInfo := none }

/-- An author record with no name fields at all. -/
def auNone : Author :=
  { lastName := none, foreName := none, collectiveName := none, affiliationInfo := none }

/-- The article of the spec's end-to-end example. -/
def articleGene : JsArticle :=
  { articleTitle := some (JsTitle.str "A Study of Gene X Regulation"),
    pubYear := some "2020",
    authorList := some (OneOrMany.one auJane) }

/-- A detail oracle with one record on the first batch of
`["a", "b", "c"]` at batch size 2 and none elsewhere. -/
def detailC8 : List String → Option (OneOrMany JsArticle) :=
  fun c => if c = ["a", "b"] then some (OneOrMany.one articleGene) else none

/-! ## Claim C7: keyword validation -/

/-- C7: for every non-empty configured keyword list and every title,
`validateTitle` returns true if and only if the normalized title
(trimmed, lowercased, with a structured title's primary text field
extracted — all inside `normalizeTitle`) contains at least one of the
keywords, lowercased, as a substring; the keyword list is OR-combined. -/
theorem claimC7_validateTitle (kws : List String) (t : JsTitle) (h : kws ≠ []) :
    validateTitle kws t = true ↔
      ∃ k ∈ kws, strIncludes (normalizeTitle t) (strLower k) = true := by
  unfold validateTitle
  simp [List.any_eq_true]

/-- Witness for C7 at the spec's end-to-end example. -/
theorem claimC7_witness :
    (["gene"] : List String) ≠ [] ∧
      (validateTitle ["gene"] (JsTitle.str "A Study of Gene X Regulation") = true ↔
        ∃ k ∈ ["gene"],
          strIncludes (normalizeTitle (JsTitle.str "A Study of Gene X Regulation")) (strLower k)
            = true) :=
  ⟨by decide, claimC7_validateTitle ["gene"] (JsTitle.str "A Study of Gene X Regulation")
    (by decide)⟩

/-! ## Claim C10: author-name formatting -/

/-- C10: `formatAuthorName` returns, in priority order, `"<given> <last>"`
exactly when both the last and the given name are present (truthy), the
last name alone when only the last name is present, the collective name
unmodified when only it is present, and the empty string when none are
present. -/
theorem claimC10_formatAuthorName (au : Author) :
    (strTruthy au.lastName = true → strTruthy au.foreName = true →
      formatAuthorName au = jsOrEmpty au.foreName ++ " " ++ jsOrEmpty au.lastName)
  ∧ (strTruthy au.lastName = true → strTruthy au.foreName = false →
      strTruthy au.collectiveName = false → formatAuthorName au = jsOrEmpty au.lastName)
  ∧ (strTruthy au.lastName = false → strTruthy au.foreName = false →
      strTruthy au.collectiveName = true → formatAuthorName au = jsOrEmpty au.collectiveName)
  ∧ (strTruthy au.lastName = false → strTruthy au.foreName = false →
      strTruthy au.collectiveName = false → formatAuthorName au = "") := by
  unfold formatAuthorName
  refine ⟨?_, ?_, ?_, ?_⟩ <;> intros <;> simp_all

/-- Witness for C10 on one author of each shape. -/
theorem claimC10_witness :
    formatAuthorName auJane = jsOrEmpty auJane.foreName ++ " " ++ jsOrEmpty auJane.lastName
  ∧ formatAuthorName auLastOnly = jsOrEmpty auLastOnly.lastName
  ∧ formatAuthorName auColl = jsOrEmpty auColl.collectiveName
  ∧ formatAuthorName auNone = "" :=
  ⟨(claimC10_formatAuthorName auJane).1 (by decide) (by decide),
   (claimC10_formatAuthorName auLastOnly).2.1 (by decide) (by decide) (by decide),
   (claimC10_formatAuthorName auColl).2.2.1 (by decide) (by decide) (by decide),
   (claimC10_formatAuthorName auNone).2.2.2 (by decide) (by decide) (by decide)⟩

/-! ## Claim C8: batch partitioning -/

/-- The chunking loop on an empty input builds no batch, for any fuel. -/
theorem chunkGo_nil (bs fuel : Nat) : chunkGo bs fuel ([] : List α) = [] := by
  cases fuel <;> rfl

/-- With a positive batch size and sufficient fuel, the batches
concatenate back to the input. -/
theorem chunkGo_flatten (bs : Nat) (hbs : 0 < bs) :
    ∀ (fuel : Nat) (l : List α), l.length ≤ fuel → (chunkGo bs fuel l).flatten = l := by
  intro fuel
  induction fuel with
  | zero =>
    intro l hl
    have : l = [] := List.length_eq_zero.mp (Nat.le_zero.mp hl)
    simp [this, chunkGo_nil]
  | succ f ih =>
    intro l hl
    cases l with
    | nil => simp [chunkGo_nil]
    | cons x xs =>
      have hd : ((x :: xs).drop bs).length ≤ f := by
        simp only [List.length_drop, List.length_cons] at hl ⊢
        omega
      show (List.take bs (x :: xs) :: chunkGo bs f (List.drop bs (x :: xs))).flatten = x :: xs
      rw [List.flatten_cons, ih ((x :: xs).drop bs) hd, List.take_append_drop]

/-- With a positive batch size, every batch is non-empty and no longer
than the batch size. -/
theorem chunkGo_mem_bounds (bs : Nat) (hbs : 0 < bs) :
    ∀ (fuel : Nat) (l : List α), ∀ c ∈ chunkGo bs fuel l, c ≠ [] ∧ c.length ≤ bs := by
  intro fuel
  induction fuel with
  | zero => intro l c hc; simp [chunkGo] at hc
  | succ f ih =>
    intro l c hc
    cases l with
    | nil => simp [chunkGo_nil] at hc
    | cons x xs =>
      rw [show chunkGo bs (f + 1) (x :: xs)
          = (x :: xs).take bs :: chunkGo bs f ((x :: xs).drop bs) from rfl] at hc
      rw [List.mem_cons] at hc
      rcases hc with hc | hc
      · subst hc
        refine ⟨?_, ?_⟩
        · simp [List.take_eq_nil_iff]
          omega
        · rw [List.length_take]
          exact min_le_left _ _
      · exact ih _ c hc

/-- With a positive batch size, every batch except possibly the last has
exactly the batch size. -/
theorem chunkGo_dropLast_full (bs : Nat) (hbs : 0 < bs) :
    ∀ (fuel : Nat) (l : List α), ∀ c ∈ (chunkGo bs fuel l).dropLast, c.length = bs := by
  intro fuel
  induction fuel with
  | zero => intro l c hc; simp [chunkGo] at hc
  | succ f ih =>
    intro l c hc
    cases l with
    | nil => simp [chunkGo_nil] at hc
    | cons x xs =>
      rw [show chunkGo bs (f + 1) (x :: xs)
          = (x :: xs).take bs :: chunkGo bs f ((x :: xs).drop bs) from rfl] at hc
      rcases hrest : chunkGo bs f ((x :: xs).drop bs) with _ | ⟨c0, cs⟩
      · rw [hrest] at hc
        simp at hc
      · rw [hrest, List.dropLast_cons_of_ne_nil (by simp), List.mem_cons] at hc
        rcases hc with hc | hc
        · subst hc
          have hlen : bs < (x :: xs).length := by
            by_contra hle
            push_neg at hle
            have : (x :: xs).drop bs = [] := List.drop_eq_nil_iff.mpr hle
            rw [this, chunkGo_nil] at hrest
            exact List.noConfusion hrest
          rw [List.length_take]
          omega
        · have := ih ((x :: xs).drop bs) c
          rw [hrest] at this
          exact this hc

/-- Folding append over a list equals the accumulator followed by the
flattened per-element contributions. -/
theorem foldl_append_flatten {β γ : Type} (g : β → List γ) :
    ∀ (l : List β) (acc : List γ),
      l.foldl (fun a c => a ++ g c) acc = acc ++ (l.map g).flatten := by
  intro l
  induction l with
  | nil => intro acc; simp
  | cons c cs ih => intro acc; simp [ih, List.append_assoc]

/-- C8: `fetchArticleDetails` partitions the identifier list into
consecutive chunks of size `BATCH_SIZE` — every chunk non-empty and at
most `BATCH_SIZE` long, every chunk but the last exactly `BATCH_SIZE`
long, and the chunks concatenating back to the input — and returns the
in-order concatenation over chunks of the normalized record sequence of
each chunk's response; a chunk whose response yields no records
contributes `respList none = []`, not an error. -/
theorem claimC8_fetchArticleDetails (bs : Nat)
    (oracle : List String → Option (OneOrMany JsArticle)) (ids : List String) (hbs : 0 < bs) :
    (chunkList bs ids).flatten = ids
  ∧ (∀ c ∈ chunkList bs ids, c ≠ [] ∧ c.length ≤ bs)
  ∧ (∀ c ∈ (chunkList bs ids).dropLast, c.length = bs)
  ∧ fetchArticleDetails bs oracle ids
      = ((chunkList bs ids).map fun c => respList (oracle c)).flatten := by
  refine ⟨chunkGo_flatten bs hbs ids.length ids le_rfl,
    fun c hc => chunkGo_mem_bounds bs hbs ids.length ids c hc,
    fun c hc => chunkGo_dropLast_full bs hbs ids.length ids c hc, ?_⟩
  unfold fetchArticleDetails
  rw [foldl_append_flatten]
  simp

/-- Witness for C8 at batch size 2 on three identifiers. -/
theorem claimC8_witness :
    ((chunkList 2 ["a", "b", "c"]).flatten = ["a", "b", "c"]
  ∧ (∀ c ∈ chunkList 2 ["a", "b", "c"], c ≠ [] ∧ c.length ≤ 2)
  ∧ (∀ c ∈ (chunkList 2 ["a", "b", "c"]).dropLast, c.length = 2)
  ∧ fetchArticleDetails 2 detailC8 ["a", "b", "c"]
      = ((chunkList 2 ["a", "b", "c"]).map fun c => respList (detailC8 c)).flatten) :=
  claimC8_fetchArticleDetails 2 detailC8 ["a", "b", "c"] (by decide)

/-! ## Claim C2: waits between retry attempts -/

/-- If the first `k` attempts fail and attempt `k` succeeds (all inside
the retry budget), the event trace of the retry loop from attempt `a` is
one request followed by `k` repetitions of wait-wait-request: the failed
attempt's catch-block waits once and the top of the next iteration waits
again. -/
theorem fwrGo_ok_pattern {ε α : Type} (oracle : Nat → Except ε α) (retries : Nat) (b : α) :
    ∀ (k a fuel : Nat), a + k < retries → retries - a ≤ fuel →
      (∀ i, i < k → ∃ e, oracle (a + i) = Except.error e) →
      oracle (a + k) = Except.ok b →
      fwrGo oracle retries a fuel =
        ((if 0 < a then [Ev.wait] else []) ++ [Ev.req]
          ++ (List.replicate k [Ev.wait, Ev.wait, Ev.req]).flatten,
         Except.ok (some b)) := by
  intro k
  induction k with
  | zero =>
    intro a fuel hlt hfuel _ hok
    obtain ⟨f, rfl⟩ : ∃ f, fuel = f + 1 := ⟨fuel - 1, by omega⟩
    have ha : a < retries := by omega
    have hok' : oracle a = Except.ok b := by simpa using hok
    simp [fwrGo, ha, hok']
  | succ k ih =>
    intro a fuel hlt hfuel herr hok
    obtain ⟨f, rfl⟩ : ∃ f, fuel = f + 1 := ⟨fuel - 1, by omega⟩
    have ha : a < retries := by omega
    have hne : ¬(a + 1 = retries) := by omega
    obtain ⟨e0, h0⟩ : ∃ e, oracle a = Except.error e := by
      simpa using herr 0 (by omega)
    have hrec := ih (a + 1) f (by omega) (by omega)
      (fun i hi => by
        rw [show a + 1 + i = a + (i + 1) from by omega]
        exact herr (i + 1) (by omega))
      (by rw [show a + 1 + k = a + (k + 1) from by omega]; exact hok)
    simp only [fwrGo]
    rw [if_pos ha, h0]
    simp [hne, hrec, List.replicate_succ, List.flatten_cons, List.append_assoc]

/-- If all attempts up to the retry budget fail, the event trace from
attempt `a` is one request followed by `j - 1` repetitions of
wait-wait-request, the last attempt re-throwing the final error without
a trailing wait. -/
theorem fwrGo_err_pattern {ε α : Type} (oracle : Nat → Except ε α) (retries : Nat) :
    ∀ (j a fuel : Nat), 1 ≤ j → a + j = retries → retries - a ≤ fuel →
      (∀ i, i < j → ∃ e, oracle (a + i) = Except.error e) →
      ∃ e, oracle (a + (j - 1)) = Except.error e ∧
        fwrGo oracle retries a fuel =
          ((if 0 < a then [Ev.wait] else []) ++ [Ev.req]
            ++ (List.replicate (j - 1) [Ev.wait, Ev.wait, Ev.req]).flatten,
           Except.error e) := by
  intro j
  induction j with
  | zero => intro a fuel h1; omega
  | succ j ih =>
    intro a fuel _ hsum hfuel herr
    obtain ⟨f, rfl⟩ : ∃ f, fuel = f + 1 := ⟨fuel - 1, by omega⟩
    have ha : a < retries := by omega
    obtain ⟨e0, h0⟩ : ∃ e, oracle a = Except.error e := by
      simpa using herr 0 (by omega)
    cases j with
    | zero =>
      refine ⟨e0, by simpa using h0, ?_⟩
      have hlast : a + 1 = retries := by omega
      simp [fwrGo, ha, h0, hlast]
    | succ j' =>
      have hne : ¬(a + 1 = retries) := by omega
      obtain ⟨e, he, hrec⟩ := ih (a + 1) f (by omega) (by omega) (by omega)
        (fun i hi => by
          rw [show a + 1 + i = a + (i + 1) from by omega]
          exact herr (i + 1) (by omega))
      refine ⟨e, ?_, ?_⟩
      · rw [show a + (j' + 1 + 1 - 1) = a + 1 + (j' + 1 - 1) from by omega]
        exact he
      · simp only [fwrGo]
        rw [if_pos ha, h0]
        simp [hne, hrec, List.replicate_succ, List.flatten_cons, List.append_assoc]

/-- C2 as frozen is false: with every attempt failing and a budget of 3,
the trace of `fetchWithRetry` contains two consecutive waits between
consecutive attempts, not the single wait the claim asserts (which would
give the trace `[req, wait, req, wait, req]`). -/
theorem claimC2_counterexample :
    (fetchWithRetry failO 3).1
        = [Ev.req, Ev.wait, Ev.wait, Ev.req, Ev.wait, Ev.wait, Ev.req]
  ∧ (fetchWithRetry failO 3).1 ≠ [Ev.req, Ev.wait, Ev.req, Ev.wait, Ev.req] := by
  decide

/-- C2 amended: for every call of `fetchWithRetry`, no wait occurs before
the first attempt, exactly two waits of `delayMs` occur between any two
consecutive attempts (one in the catch-block after the failure, one at
the top of the retry iteration), and no wait follows the final failed
attempt — whether the call ends in a success at attempt `k` or exhausts
the whole budget. -/
theorem claimC2_retry_waits {ε α : Type} (oracle : Nat → Except ε α) (retries : Nat) :
    (∀ (k : Nat) (b : α), k < retries →
        (∀ i, i < k → ∃ e, oracle i = Except.error e) → oracle k = Except.ok b →
        (fetchWithRetry oracle retries).1
          = [Ev.req] ++ (List.replicate k [Ev.wait, Ev.wait, Ev.req]).flatten)
  ∧ (1 ≤ retries → (∀ i, i < retries → ∃ e, oracle i = Except.error e) →
      (fetchWithRetry oracle retries).1
        = [Ev.req] ++ (List.replicate (retries - 1) [Ev.wait, Ev.wait, Ev.req]).flatten) := by
  constructor
  · intro k b hk herr hok
    have := fwrGo_ok_pattern oracle retries b k 0 retries (by omega) (by omega)
      (fun i hi => by simpa using herr i hi) (by simpa using hok)
    unfold fetchWithRetry
    rw [this]
    simp
  · intro hr herr
    obtain ⟨e, _, hpat⟩ := fwrGo_err_pattern oracle retries retries 0 retries hr (by omega)
      (by omega) (fun i hi => by simpa using herr i hi)
    unfold fetchWithRetry
    rw [hpat]
    simp

/-- Witness for the amended C2: a run succeeding at the third attempt and
a run exhausting all three attempts both show the wait-wait pattern. -/
theorem claimC2_witness :
    (fetchWithRetry succO 3).1
        = [Ev.req] ++ (List.replicate 2 [Ev.wait, Ev.wait, Ev.req]).flatten
  ∧ (fetchWithRetry failO 3).1
        = [Ev.req] ++ (List.replicate 2 [Ev.wait, Ev.wait, Ev.req]).flatten :=
  ⟨(claimC2_retry_waits succO 3).1 2 "body" (by decide)
      (fun i hi => ⟨(), by simp [succO, hi]⟩) rfl,
   (claimC2_retry_waits failO 3).2 (by decide) (fun i _ => ⟨(), rfl⟩)⟩

/-! ## Claim C4: retry contract and error propagation -/

/-- Bounded quantification below three unfolded to a conjunction. -/
theorem forall_lt_three {P : Nat → Prop} : (∀ i, i < 3 → P i) ↔ P 0 ∧ P 1 ∧ P 2 := by
  constructor
  · intro h
    exact ⟨h 0 (by omega), h 1 (by omega), h 2 (by omega)⟩
  · rintro ⟨h0, h1, h2⟩ i hi
    interval_cases i <;> assumption

/-- With a budget of three attempts, `fetchWithRetry` throws exactly when
all three attempts fail. -/
theorem fetchWithRetry3_err_iff {ε α : Type} (oracle : Nat → Except ε α) :
    (∃ e, (fetchWithRetry oracle 3).2 = Except.error e) ↔
      ∀ i, i < 3 → ∃ e, oracle i = Except.error e := by
  constructor
  · rintro ⟨e, he⟩
    rcases h0 : oracle 0 with e0 | b0
    case ok =>
      have hp := fwrGo_ok_pattern oracle 3 b0 0 0 3 (by omega) (by omega)
        (fun i hi => absurd hi (by omega)) (by simpa using h0)
      unfold fetchWithRetry at he
      rw [hp] at he
      simp at he
    case error =>
      rcases h1 : oracle 1 with e1 | b1
      case ok =>
        have hp := fwrGo_ok_pattern oracle 3 b1 1 0 3 (by omega) (by omega)
          (fun i hi => ⟨e0, by interval_cases i; simpa using h0⟩) (by simpa using h1)
        unfold fetchWithRetry at he
        rw [hp] at he
        simp at he
      case error =>
        rcases h2 : oracle 2 with e2 | b2
        case ok =>
          have hp := fwrGo_ok_pattern oracle 3 b2 2 0 3 (by omega) (by omega)
            (fun i hi => by
              interval_cases i
              · exact ⟨e0, by simpa using h0⟩
              · exact ⟨e1, by simpa using h1⟩)
            (by simpa using h2)
          unfold fetchWithRetry at he
          rw [hp] at he
          simp at he
        case error =>
          intro i hi
          interval_cases i
          · exact ⟨e0, h0⟩
          · exact ⟨e1, h1⟩
          · exact ⟨e2, h2⟩
  · intro h
    obtain ⟨e, _, hpat⟩ := fwrGo_err_pattern oracle 3 3 0 3 (by omega) (by omega) (by omega)
      (fun i hi => by simpa using h i hi)
    exact ⟨e, by unfold fetchWithRetry; rw [hpat]⟩

/-- The wait-wait-request repetitions contain one request each. -/
theorem countReqFlatten (k : Nat) :
    ((List.replicate k [Ev.wait, Ev.wait, Ev.req]).flatten.count Ev.req) = k := by
  induction k with
  | zero => rfl
  | succ k ih => simp [List.replicate_succ, List.flatten_cons, List.count_append, ih]

/-- A pagination run whose first page is full (500 ids) and whose second
page request throws: the loop records both offsets, keeps only the first
page's ids, and propagates the request error. -/
theorem searchLoop_page_then_err (oracle : Nat → Except Unit (Option (OneOrMany String)))
    (P0 : List String) (h0 : oracle 0 = Except.ok (some (OneOrMany.many P0)))
    (hlen : P0.length = 500) (h500 : oracle 500 = Except.error ()) :
    ∀ fuel, 2 ≤ fuel → searchLoop oracle 1000 500 fuel 0 [] []
      = { offsets := [0, 500], ids := P0, err := some SearchErr.requestError } := by
  intro fuel hf
  obtain ⟨f, rfl⟩ : ∃ f, fuel = f + 2 := ⟨fuel - 2, by omega⟩
  show searchLoop oracle 1000 500 (f + 1 + 1) 0 [] [] = _
  simp [searchLoop, h0, h500, hlen, omStrFalsy, OneOrMany.toList]

/-- C4: `fetchWithRetry` with 3 attempts returns the body of the first
successful attempt and issues no request beyond it (the trace holds
exactly `k + 1` requests when attempt `k` is the first success); it
throws exactly when all 3 consecutive attempts fail; and when the page
request at offset 500 exhausts all 3 attempts, `searchArticles`
propagates the error and accumulates nothing from the failing page —
only the 500 ids of the page fetched at offset 0. -/
theorem claimC4_retry_contract :
    (∀ {ε α : Type} (oracle : Nat → Except ε α) (k : Nat) (b : α), k < 3 →
        (∀ i, i < k → ∃ e, oracle i = Except.error e) → oracle k = Except.ok b →
        (fetchWithRetry oracle 3).2 = Except.ok (some b)
          ∧ (fetchWithRetry oracle 3).1.count Ev.req = k + 1)
  ∧ (∀ {ε α : Type} (oracle : Nat → Except ε α),
      (∃ e, (fetchWithRetry oracle 3).2 = Except.error e) ↔
        ∀ i, i < 3 → ∃ e, oracle i = Except.error e)
  ∧ (∀ (att : Nat → Nat → Except Unit (Option (OneOrMany String))) (P0 : List String),
      pageOracleOfFetch att 0 = Except.ok (some (OneOrMany.many P0)) → P0.length = 500 →
      (∀ i, i < 3 → att 500 i = Except.error ()) →
      searchArticles 1000 500 (pageOracleOfFetch att)
        = { offsets := [0, 500], ids := P0, err := some SearchErr.requestError }) := by
  refine ⟨?_, fun oracle => fetchWithRetry3_err_iff oracle, ?_⟩
  · intro ε α oracle k b hk herr hok
    have hp := fwrGo_ok_pattern oracle 3 b k 0 3 (by omega) (by omega)
      (fun i hi => by simpa using herr i hi) (by simpa using hok)
    unfold fetchWithRetry
    rw [hp]
    refine ⟨rfl, ?_⟩
    simp [List.count_append, countReqFlatten]
  · intro att P0 h0 hlen hfail
    have herr : ∃ e, (fetchWithRetry (att 500) 3).2 = Except.error e :=
      (fetchWithRetry3_err_iff (att 500)).mpr fun i hi => ⟨(), hfail i hi⟩
    obtain ⟨e, he⟩ := herr
    have h500 : pageOracleOfFetch att 500 = Except.error () := by
      unfold pageOracleOfFetch
      rw [he]
    exact searchLoop_page_then_err (pageOracleOfFetch att) P0 h0 hlen h500 (1000 + 1)
      (by omega)

/-- Witness for C4: a success at the third attempt, a run of three
failures, and a paginated search whose second page request always
fails. -/
theorem claimC4_witness :
    ((fetchWithRetry succO 3).2 = Except.ok (some "body")
      ∧ (fetchWithRetry succO 3).1.count Ev.req = 2 + 1)
  ∧ ((∃ e, (fetchWithRetry failO 3).2 = Except.error e) ↔
      ∀ i, i < 3 → ∃ e, failO i = Except.error e)
  ∧ searchArticles 1000 500 (pageOracleOfFetch attC4)
      = { offsets := [0, 500], ids := List.replicate 500 "x",
          err := some SearchErr.requestError } :=
  ⟨claimC4_retry_contract.1 succO 2 "body" (by omega)
      (fun i hi => ⟨(), by simp [succO, hi]⟩) rfl,
   claimC4_retry_contract.2.1 failO,
   claimC4_retry_contract.2.2 attC4 (List.replicate 500 "x") rfl (by rw [List.length_replicate])
      (fun i _ => rfl)⟩

/-! ## Claim C1: the MAX_RESULTS boundary -/

/-- A pagination run with `MAX_RESULTS = 1000`, page size 500 and two
full pages: the loop exits at `retStart = 1000` because the cap check
`retStart < MAX_RESULTS` fails there, before any fetch. -/
theorem searchLoop_two_full_pages (oracle : Nat → Except Unit (Option (OneOrMany String)))
    (l0 l1 : List String)
    (h0 : oracle 0 = Except.ok (some (OneOrMany.many l0))) (hl0 : l0.length = 500)
    (h1 : oracle 500 = Except.ok (some (OneOrMany.many l1))) (hl1 : l1.length = 500) :
    ∀ fuel, 3 ≤ fuel → searchLoop oracle 1000 500 fuel 0 [] []
      = { offsets := [0, 500], ids := l0 ++ l1, err := none } := by
  intro fuel hf
  obtain ⟨f, rfl⟩ : ∃ f, fuel = f + 3 := ⟨fuel - 3, by omega⟩
  have hne : l0 ≠ [] := by
    intro h
    rw [h] at hl0
    simp at hl0
  show searchLoop oracle 1000 500 (f + 1 + 1 + 1) 0 [] [] = _
  simp [searchLoop, h0, h1, hl0, hl1, omStrFalsy, OneOrMany.toList, finishRun, hne]

/-- C1 as frozen is false: with every page full, `MAX_RESULTS = 1000` and
page size 500, the run fetches only the pages at offsets 0 and 500 — the
fetch at offset 1000 never occurs, precisely because the cap check
`offset < MAX_RESULTS` is evaluated before each fetch and `1000 < 1000`
fails. -/
theorem claimC1_counterexample :
    (searchArticles 1000 500 fullOracle500).offsets = [0, 500]
  ∧ 1000 ∉ (searchArticles 1000 500 fullOracle500).offsets
  ∧ (searchArticles 1000 500 fullOracle500).offsets ≠ [0, 500, 1000] := by
  have h := searchLoop_two_full_pages fullOracle500 (List.replicate 500 "x")
    (List.replicate 500 "x") rfl (by rw [List.length_replicate]) rfl
    (by rw [List.length_replicate]) (1000 + 1) (by omega)
  unfold searchArticles
  rw [h]
  exact ⟨rfl, by decide, by decide⟩

/-- C1 amended: with `MAX_RESULTS = 1000`, page size 500 and every page
returning a full 500 identifiers, pagination fetches exactly 2 pages, at
offsets 0 and 500; no fetch at offset 1000 occurs, because the cap check
`offset < MAX_RESULTS` is evaluated before each page fetch and fails at
offset 1000. -/
theorem claimC1_search_cap (oracle : Nat → Except Unit (Option (OneOrMany String)))
    (hfull : ∀ off, ∃ l, oracle off = Except.ok (some (OneOrMany.many l)) ∧ l.length = 500) :
    (searchArticles 1000 500 oracle).offsets = [0, 500]
  ∧ 1000 ∉ (searchArticles 1000 500 oracle).offsets := by
  obtain ⟨l0, h0, hl0⟩ := hfull 0
  obtain ⟨l1, h1, hl1⟩ := hfull 500
  have h := searchLoop_two_full_pages oracle l0 l1 h0 hl0 h1 hl1 (1000 + 1) (by omega)
  unfold searchArticles
  rw [h]
  exact ⟨rfl, by simp⟩

/-- Witness for the amended C1 on the all-full simulated endpoint. -/
theorem claimC1_witness :
    (searchArticles 1000 500 fullOracle500).offsets = [0, 500]
  ∧ 1000 ∉ (searchArticles 1000 500 fullOracle500).offsets :=
  claimC1_search_cap fullOracle500 fun _ =>
    ⟨List.replicate 500 "x", rfl, by rw [List.length_replicate]⟩

/-! ## Claim C6: pagination terminates on a short page -/

/-! ## Claim C6: pagination terminates on a short page -/

/-- A pagination run over three pages of sizes 500, 500 and 237 with a
non-binding cap: the loop stops right after the third page because
237 < 500, accumulating the three pages in order. -/
theorem searchLoop_three_pages (oracle : Nat → Except Unit (Option (OneOrMany String)))
    (l0 l1 l2 : List String)
    (h0 : oracle 0 = Except.ok (some (OneOrMany.many l0))) (hl0 : l0.length = 500)
    (h1 : oracle 500 = Except.ok (some (OneOrMany.many l1))) (hl1 : l1.length = 500)
    (h2 : oracle 1000 = Except.ok (some (OneOrMany.many l2))) (hl2 : l2.length = 237) :
    ∀ fuel, 3 ≤ fuel → searchLoop oracle 10000 500 fuel 0 [] []
      = { offsets := [0, 500, 1000], ids := l0 ++ l1 ++ l2, err := none } := by
  intro fuel hf
  obtain ⟨f, rfl⟩ : ∃ f, fuel = f + 3 := ⟨fuel - 3, by omega⟩
  have hne : l0 ≠ [] := by
    intro h
    rw [h] at hl0
    simp at hl0
  show searchLoop oracle 10000 500 (f + 1 + 1 + 1) 0 [] [] = _
  simp [searchLoop, h0, h1, h2, hl0, hl1, hl2, omStrFalsy, OneOrMany.toList, finishRun, hne,
    List.append_assoc]

/-- C6: on the simulated endpoint returning pages of sizes 500, 500, 237
with page size 500 and a non-binding `MAX_RESULTS` of 10000, the search
stops after the third page (because 237 < 500) and returns exactly 1237
identifiers in page order. -/
theorem claimC6_pagination_terminates :
    (searchArticles 10000 500 pagesC6).offsets = [0, 500, 1000]
  ∧ (searchArticles 10000 500 pagesC6).ids
      = mkIds 0 500 ++ mkIds 500 500 ++ mkIds 1000 237
  ∧ (searchArticles 10000 500 pagesC6).ids.length = 1237
  ∧ (searchArticles 10000 500 pagesC6).err = none := by
  have hlen : ∀ start n, (mkIds start n).length = n := by
    intro start n
    simp [mkIds]
  have h := searchLoop_three_pages pagesC6 (mkIds 0 500) (mkIds 500 500) (mkIds 1000 237)
    rfl (hlen 0 500) rfl (hlen 500 500) rfl (hlen 1000 237) (10000 + 1) (by omega)
  unfold searchArticles
  rw [h]
  refine ⟨rfl, rfl, ?_, rfl⟩
  simp [hlen]

/-! ## Claim C5: NoResultsError -/

/-- The loop-exit value throws `NoResultsError` exactly when the
accumulator is empty. -/
theorem finishRun_noResults_iff (acc : List String) (tr : List Nat) :
    (finishRun acc tr).err = some SearchErr.noResults ↔
      ((finishRun acc tr).ids = [] ∧ (finishRun acc tr).err ≠ some SearchErr.requestError) := by
  by_cases h : acc.isEmpty <;> simp_all [finishRun, List.isEmpty_iff]

/-- Invariant of the pagination loop: every exit raises `NoResultsError`
exactly when pagination completed (did not throw a request error) with an
empty accumulator. -/
theorem searchLoop_noResults_iff (oracle : Nat → Except Unit (Option (OneOrMany String)))
    (maxR retmax : Nat) :
    ∀ (fuel retStart : Nat) (acc : List String) (tr : List Nat),
      (searchLoop oracle maxR retmax fuel retStart acc tr).err = some SearchErr.noResults ↔
        ((searchLoop oracle maxR retmax fuel retStart acc tr).ids = []
          ∧ (searchLoop oracle maxR retmax fuel retStart acc tr).err
              ≠ some SearchErr.requestError) := by
  intro fuel
  induction fuel with
  | zero => intro retStart acc tr; exact finishRun_noResults_iff acc tr
  | succ f ih =>
    intro retStart acc tr
    show (searchLoop oracle maxR retmax (f + 1) retStart acc tr).err = _ ↔ _
    rw [searchLoop]
    split
    · split
      · simp
      · exact finishRun_noResults_iff _ _
      · split
        · exact finishRun_noResults_iff _ _
        · dsimp only
          split
          · exact finishRun_noResults_iff _ _
          · exact ih _ _ _
    · exact finishRun_noResults_iff _ _

/-- A pagination run whose first page response carries no `IdList`: the
loop breaks immediately after the first fetch and throws
`NoResultsError`. -/
theorem searchLoop_absent_first (oracle : Nat → Except Unit (Option (OneOrMany String)))
    (maxR retmax : Nat) (hm : 0 < maxR) (h0 : oracle 0 = Except.ok none) :
    ∀ fuel, 1 ≤ fuel → searchLoop oracle maxR retmax fuel 0 [] []
      = { offsets := [0], ids := [], err := some SearchErr.noResults } := by
  intro fuel hf
  obtain ⟨f, rfl⟩ : ∃ f, fuel = f + 1 := ⟨fuel - 1, by omega⟩
  simp [searchLoop, hm, h0, finishRun]

/-- C5: `searchArticles` fails with `NoResultsError` exactly when
pagination completes (raises no request error) with zero accumulated
identifiers; and when the identifier list is absent from the first
page's response, `NoResultsError` is raised immediately — only offset 0
was fetched — and the pipeline attempts no batch fetch. -/
theorem claimC5_noResults :
    (∀ (maxR retmax : Nat) (oracle : Nat → Except Unit (Option (OneOrMany String))),
        (searchArticles maxR retmax oracle).err = some SearchErr.noResults ↔
          ((searchArticles maxR retmax oracle).ids = []
            ∧ (searchArticles maxR retmax oracle).err ≠ some SearchErr.requestError))
  ∧ (∀ (maxR retmax bs : Nat) (pageO : Nat → Except Unit (Option (OneOrMany String)))
        (detailO : List String → Option (OneOrMany JsArticle)),
      0 < maxR → pageO 0 = Except.ok none →
      (searchArticles maxR retmax pageO).offsets = [0]
        ∧ (searchArticles maxR retmax pageO).err = some SearchErr.noResults
        ∧ (pipeline maxR retmax bs pageO detailO).2 = 0) := by
  constructor
  · intro maxR retmax oracle
    exact searchLoop_noResults_iff oracle maxR retmax (maxR + 1) 0 [] []
  · intro maxR retmax bs pageO detailO hm h0
    have h : searchArticles maxR retmax pageO
        = { offsets := [0], ids := [], err := some SearchErr.noResults } := by
      unfold searchArticles
      exact searchLoop_absent_first pageO maxR retmax hm h0 (maxR + 1) (by omega)
    refine ⟨by rw [h], by rw [h], ?_⟩
    unfold pipeline
    rw [h]

/-- Witness for C5: the no-results endpoint with `MAX_RESULTS = 1000`,
page size 500, batch size 100. -/
theorem claimC5_witness :
    ((searchArticles 1000 500 absentO).err = some SearchErr.noResults ↔
        ((searchArticles 1000 500 absentO).ids = []
          ∧ (searchArticles 1000 500 absentO).err ≠ some SearchErr.requestError))
  ∧ ((searchArticles 1000 500 absentO).offsets = [0]
      ∧ (searchArticles 1000 500 absentO).err = some SearchErr.noResults
      ∧ (pipeline 1000 500 100 absentO detailNone).2 = 0) :=
  ⟨claimC5_noResults.1 1000 500 absentO,
   claimC5_noResults.2 1000 500 100 absentO detailNone (by omega) rfl⟩

/-! ## Claims C3 and C9: the author aggregate -/

/-- Lookup after appending a fresh entry: an existing binding wins,
otherwise the fresh key answers. -/
theorem amFind_append_single (m : AuthorMap) (k n : String) (e : AuthorEntry) :
    amFind (m ++ [(k, e)]) n
      = if (amFind m n).isSome then amFind m n else if k = n then some e else none := by
  induction m with
  | nil => simp [amFind]
  | cons p rest ih =>
    obtain ⟨k', e'⟩ := p
    by_cases h : k' = n <;> simp [amFind, h, ih]

/-- Lookup after an in-place update: only the updated key's value
changes, via `f`. -/
theorem amFind_amUpdate (m : AuthorMap) (k n : String) (f : AuthorEntry → AuthorEntry) :
    amFind (amUpdate m k f) n = if n = k then (amFind m k).map f else amFind m n := by
  induction m with
  | nil => simp [amFind, amUpdate]
  | cons p rest ih =>
    obtain ⟨k', e'⟩ := p
    show amFind (if k' = k then (k', f e') :: rest else (k', e') :: amUpdate rest k f) n = _
    by_cases hk : k' = k
    · rw [if_pos hk]
      subst hk
      by_cases hn : n = k'
      · subst hn
        simp [amFind]
      · have h1 : ¬ k' = n := fun h => hn h.symm
        simp [amFind, h1, hn]
    · rw [if_neg hk]
      by_cases hn : n = k
      · subst hn
        have h1 : ¬ k' = n := hk
        simp [amFind, h1, ih]
      · by_cases h2 : k' = n
        · subst h2
          simp [amFind, hn]
        · simp [amFind, h2, hn, ih]

/-- Processing one author adds exactly its non-empty formatted name to
the aggregate's key set. -/
theorem amFind_processAuthor_isSome (t : String) (m : AuthorMap) (au : Author) (n : String) :
    (amFind (processAuthor t m au) n).isSome
      ↔ ((amFind m n).isSome ∨ (formatAuthorName au = n ∧ n ≠ "")) := by
  unfold processAuthor
  by_cases hname : formatAuthorName au = ""
  · rw [if_pos hname]
    constructor
    · exact Or.inl
    · rintro (h | ⟨h1, h2⟩)
      · exact h
      · rw [h1] at hname
        exact absurd hname h2
  · rw [if_neg hname]
    rw [amFind_amUpdate]
    by_cases h2 : n = formatAuthorName au
    · subst h2
      rw [if_pos rfl]
      by_cases hm : (amFind m (formatAuthorName au)).isSome
      · simp [hm, hname]
      · simp [hm, amFind_append_single, hname]
    · rw [if_neg h2]
      have hfn : ¬ formatAuthorName au = n := fun h => h2 h.symm
      by_cases hm : (amFind m (formatAuthorName au)).isSome
      · simp [hm, hfn]
      · rw [if_neg hm, amFind_append_single]
        by_cases h3 : (amFind m n).isSome <;> simp [h3, hfn, hm]

/-- Folding a list of authors adds exactly their non-empty formatted
names to the key set. -/
theorem amFind_foldl_authors_isSome (t : String) (l : List Author) :
    ∀ (m : AuthorMap) (n : String),
      (amFind (l.foldl (processAuthor t) m) n).isSome
        ↔ ((amFind m n).isSome ∨ ∃ au ∈ l, formatAuthorName au = n ∧ n ≠ "") := by
  induction l with
  | nil => intro m n; simp
  | cons a l ih =>
    intro m n
    rw [List.foldl_cons, ih, amFind_processAuthor_isSome]
    constructor
    · rintro ((h | h) | ⟨au, hau, h⟩)
      · exact Or.inl h
      · exact Or.inr ⟨a, List.mem_cons_self a l, h⟩
      · exact Or.inr ⟨au, List.mem_cons_of_mem a hau, h⟩
    · rintro (h | ⟨au, hau, h⟩)
      · exact Or.inl (Or.inl h)
      · rcases List.mem_cons.mp hau with rfl | hau'
        · exact Or.inl (Or.inr h)
        · exact Or.inr ⟨au, hau', h⟩

/-- Processing one article adds exactly the non-empty formatted names of
its authors, and only when it passes validation. -/
theorem amFind_processArticle_isSome (kws : List String) (m : AuthorMap) (a : JsArticle)
    (n : String) :
    (amFind (processArticle kws m a) n).isSome
      ↔ ((amFind m n).isSome
          ∨ (validateArticleData kws a = true
              ∧ ∃ au ∈ authorsOf a, formatAuthorName au = n ∧ n ≠ "")) := by
  unfold processArticle
  by_cases hv : validateArticleData kws a
  · rw [if_pos hv]
    rcases ht : a.articleTitle with _ | tl
    · unfold validateArticleData at hv
      rw [ht] at hv
      simp at hv
    · rcases hal : a.authorList with _ | authors
      · simp [authorsOf, hal, hv]
      · rw [amFind_foldl_authors_isSome]
        simp [authorsOf, hal, hv]
  · rw [if_neg hv]
    simp only [Bool.not_eq_true] at hv
    simp [hv]

/-- Folding a list of articles into the aggregate: the key set grows by
exactly the non-empty formatted author names of validated articles. -/
theorem amFind_extract_isSome (kws : List String) (articles : List JsArticle) :
    ∀ (m : AuthorMap) (n : String),
      (amFind (articles.foldl (processArticle kws) m) n).isSome
        ↔ ((amFind m n).isSome
            ∨ ∃ a ∈ articles, validateArticleData kws a = true
                ∧ ∃ au ∈ authorsOf a, formatAuthorName au = n ∧ n ≠ "") := by
  induction articles with
  | nil => intro m n; simp
  | cons a l ih =>
    intro m n
    rw [List.foldl_cons, ih, amFind_processArticle_isSome]
    constructor
    · rintro ((h | h) | ⟨a', ha', h⟩)
      · exact Or.inl h
      · exact Or.inr ⟨a, List.mem_cons_self a l, h⟩
      · exact Or.inr ⟨a', List.mem_cons_of_mem a ha', h⟩
    · rintro (h | ⟨a', ha', h⟩)
      · exact Or.inl (Or.inl h)
      · rcases List.mem_cons.mp ha' with rfl | ha''
        · exact Or.inl (Or.inr h)
        · exact Or.inr ⟨a', ha'', h⟩

/-- C3: after `extractAuthorInfo` runs over a list of articles, an entry
keyed by a name exists in the aggregate if and only if the name is
non-empty (authors formatting to the empty string are skipped) and at
least one article that passed validation contains an author whose
formatted full name equals that name. -/
theorem claimC3_aggregate_keys (kws : List String) (articles : List JsArticle) (n : String) :
    (amFind (extractAuthorInfo kws articles) n).isSome
      ↔ (n ≠ ""
          ∧ ∃ a ∈ articles, validateArticleData kws a = true
              ∧ ∃ au ∈ authorsOf a, formatAuthorName au = n) := by
  unfold extractAuthorInfo
  rw [amFind_extract_isSome]
  simp only [amFind, Option.isSome_none, Bool.false_eq_true, false_or]
  constructor
  · rintro ⟨a, ha, hv, au, hau, hfmt, hne⟩
    exact ⟨hne, a, ha, hv, au, hau, hfmt⟩
  · rintro ⟨hne, a, ha, hv, au, hau, hfmt⟩
    exact ⟨a, ha, hv, au, hau, hfmt, hne⟩

/-- The added element is a member afterwards. -/
theorem mem_setAdd_self (s : List String) (x : String) : x ∈ setAdd s x := by
  unfold setAdd
  by_cases h : x ∈ s <;> simp [h]

/-- Adding never removes members. -/
theorem mem_setAdd_of_mem (s : List String) (x y : String) (h : y ∈ s) : y ∈ setAdd s x := by
  unfold setAdd
  by_cases hx : x ∈ s <;> simp [hx, h]

/-- Adding a present element is a no-op. -/
theorem setAdd_eq_of_mem {s : List String} {x : String} (h : x ∈ s) : setAdd s x = s := by
  simp [setAdd, h]

/-- Adding the same element twice equals adding it once. -/
theorem setAdd_idem (s : List String) (x : String) : setAdd (setAdd s x) x = setAdd s x :=
  setAdd_eq_of_mem (mem_setAdd_self s x)

/-- Set-add preserves freedom from duplicates. -/
theorem setAdd_nodup {s : List String} (x : String) (h : s.Nodup) : (setAdd s x).Nodup := by
  unfold setAdd
  by_cases hx : x ∈ s
  · simp [hx, h]
  · simp [hx, List.nodup_append, h]

/-- The affiliation fold never removes members. -/
theorem affFold_mem_mono (l : List AffInfo) :
    ∀ (s : List String) (y : String), y ∈ s →
      y ∈ l.foldl (fun s info =>
        if strTruthy info.affiliation then setAdd s (jsOrEmpty info.affiliation) else s) s := by
  induction l with
  | nil => intro s y h; exact h
  | cons i l ih =>
    intro s y h
    rw [List.foldl_cons]
    apply ih
    by_cases ht : strTruthy i.affiliation
    · simp only [ht, if_true]
      exact mem_setAdd_of_mem s _ y h
    · simp only [ht, if_false]
      exact h

/-- Every truthy affiliation of the list is a member after the fold. -/
theorem affFold_adds (l : List AffInfo) :
    ∀ (s : List String) (i : AffInfo), i ∈ l → strTruthy i.affiliation = true →
      jsOrEmpty i.affiliation ∈ l.foldl (fun s info =>
        if strTruthy info.affiliation then setAdd s (jsOrEmpty info.affiliation) else s) s := by
  induction l with
  | nil => intro s i hi; exact absurd hi (List.not_mem_nil i)
  | cons j l ih =>
    intro s i hi htr
    rw [List.foldl_cons]
    rcases List.mem_cons.mp hi with rfl | hi'
    · apply affFold_mem_mono
      simp only [htr, if_true]
      exact mem_setAdd_self s _
    · exact ih _ i hi' htr

/-- The affiliation fold is a no-op when every truthy affiliation is
already present. -/
theorem affFold_noop (l : List AffInfo) :
    ∀ (s : List String),
      (∀ i ∈ l, strTruthy i.affiliation = true → jsOrEmpty i.affiliation ∈ s) →
      l.foldl (fun s info =>
        if strTruthy info.affiliation then setAdd s (jsOrEmpty info.affiliation) else s) s = s := by
  induction l with
  | nil => intro s _; rfl
  | cons i l ih =>
    intro s h
    rw [List.foldl_cons]
    by_cases ht : strTruthy i.affiliation
    · rw [if_pos ht, setAdd_eq_of_mem (h i (List.mem_cons_self i l) ht)]
      exact ih s fun j hj => h j (List.mem_cons_of_mem i hj)
    · rw [if_neg ht]
      exact ih s fun j hj => h j (List.mem_cons_of_mem i hj)

/-- The affiliation fold preserves freedom from duplicates. -/
theorem affFold_nodup (l : List AffInfo) :
    ∀ (s : List String), s.Nodup →
      (l.foldl (fun s info =>
        if strTruthy info.affiliation then setAdd s (jsOrEmpty info.affiliation) else s) s).Nodup := by
  induction l with
  | nil => intro s h; exact h
  | cons i l ih =>
    intro s h
    rw [List.foldl_cons]
    apply ih
    by_cases ht : strTruthy i.affiliation
    · rw [if_pos ht]
      exact setAdd_nodup _ h
    · rw [if_neg ht]
      exact h

/-- `addAffiliations` never removes members. -/
theorem mem_addAffiliations_of_mem (au : Author) (s : List String) (y : String) (h : y ∈ s) :
    y ∈ addAffiliations au s := by
  unfold addAffiliations
  rcases au.affiliationInfo with _ | infos
  · exact h
  · exact affFold_mem_mono infos.toList s y h

/-- `addAffiliations` preserves freedom from duplicates. -/
theorem addAffiliations_nodup (au : Author) {s : List String} (h : s.Nodup) :
    (addAffiliations au s).Nodup := by
  unfold addAffiliations
  rcases au.affiliationInfo with _ | infos
  · exact h
  · exact affFold_nodup infos.toList s h

/-- Adding an author's affiliations twice equals adding them once. -/
theorem addAffiliations_idem (au : Author) (s : List String) :
    addAffiliations au (addAffiliations au s) = addAffiliations au s := by
  unfold addAffiliations
  rcases au.affiliationInfo with _ | infos
  · rfl
  · exact affFold_noop infos.toList _ fun i hi ht => affFold_adds infos.toList s i hi ht

/-- If one author's affiliations are already absorbed by a set, they stay
absorbed after another author's affiliations are added. -/
theorem addAffiliations_noop_mono (au' au : Author) (s : List String)
    (h : addAffiliations au' s = s) :
    addAffiliations au' (addAffiliations au s) = addAffiliations au s := by
  unfold addAffiliations at h ⊢
  rcases hai : au'.affiliationInfo with _ | infos
  · rfl
  · rw [hai] at h
    apply affFold_noop
    intro i hi ht
    have hmem : jsOrEmpty i.affiliation ∈ s := by
      rw [← h]
      exact affFold_adds infos.toList s i hi ht
    exact mem_addAffiliations_of_mem au s _ hmem

/-- A successful lookup exhibits a member of the association list. -/
theorem amFind_mem : ∀ (m : AuthorMap) (k : String) (e : AuthorEntry),
    amFind m k = some e → (k, e) ∈ m := by
  intro m
  induction m with
  | nil => intro k e h; exact absurd h (by simp [amFind])
  | cons p rest ih =>
    intro k e h
    obtain ⟨k', e'⟩ := p
    unfold amFind at h
    by_cases hk : k' = k
    · rw [if_pos hk] at h
      obtain rfl := Option.some_injective _ h
      subst hk
      exact List.mem_cons_self _ _
    · rw [if_neg hk] at h
      exact List.mem_cons_of_mem _ (ih k e h)

/-- Every entry of an updated map is an old entry or the update of an
old entry under the updated key. -/
theorem mem_amUpdate (m : AuthorMap) (k : String) (f : AuthorEntry → AuthorEntry) :
    ∀ p ∈ amUpdate m k f, p ∈ m ∨ ∃ q, q ∈ m ∧ q.1 = k ∧ p = (k, f q.2) := by
  induction m with
  | nil => intro p hp; exact absurd hp (by simp [amUpdate])
  | cons q rest ih =>
    intro p hp
    obtain ⟨k', e'⟩ := q
    unfold amUpdate at hp
    by_cases hk : k' = k
    · rw [if_pos hk] at hp
      rcases List.mem_cons.mp hp with rfl | hp'
      · exact Or.inr ⟨(k', e'), List.mem_cons_self _ _, hk, by rw [hk]⟩
      · exact Or.inl (List.mem_cons_of_mem _ hp')
    · rw [if_neg hk] at hp
      rcases List.mem_cons.mp hp with rfl | hp'
      · exact Or.inl (List.mem_cons_self _ _)
      · rcases ih p hp' with h | ⟨q, hq, hqk, hpq⟩
        · exact Or.inl (List.mem_cons_of_mem _ h)
        · exact Or.inr ⟨q, List.mem_cons_of_mem _ hq, hqk, hpq⟩

/-- Updating with a function that fixes the stored entry is a no-op. -/
theorem amUpdate_noop : ∀ (m : AuthorMap) (k : String) (f : AuthorEntry → AuthorEntry)
    (e : AuthorEntry), amFind m k = some e → f e = e → amUpdate m k f = m := by
  intro m
  induction m with
  | nil => intro k f e h; exact absurd h (by simp [amFind])
  | cons q rest ih =>
    intro k f e h hfe
    obtain ⟨k', e'⟩ := q
    unfold amFind at h
    unfold amUpdate
    by_cases hk : k' = k
    · rw [if_pos hk] at h
      obtain rfl := Option.some_injective _ h
      rw [if_pos hk, hfe]
    · rw [if_neg hk] at h
      rw [if_neg hk, ih k f e h hfe]

/-- Processing an author keeps every entry's affiliation and title sets
duplicate-free. -/
theorem processAuthor_entries_nodup (t : String) (m : AuthorMap) (au : Author)
    (H : ∀ p ∈ m, p.2.affiliations.Nodup ∧ p.2.titles.Nodup) :
    ∀ p ∈ processAuthor t m au, p.2.affiliations.Nodup ∧ p.2.titles.Nodup := by
  unfold processAuthor
  by_cases hname : formatAuthorName au = ""
  · rw [if_pos hname]
    exact H
  · rw [if_neg hname]
    intro p hp
    have H1 : ∀ p ∈ (if (amFind m (formatAuthorName au)).isSome then m
        else m ++ [(formatAuthorName au, ⟨[], []⟩)]), p.2.affiliations.Nodup ∧ p.2.titles.Nodup := by
      by_cases hm : (amFind m (formatAuthorName au)).isSome
      · rw [if_pos hm]
        exact H
      · rw [if_neg hm]
        intro p hp
        rcases List.mem_append.mp hp with h | h
        · exact H p h
        · obtain rfl := List.mem_singleton.mp h
          exact ⟨List.nodup_nil, List.nodup_nil⟩
    rcases mem_amUpdate _ _ _ p hp with h | ⟨q, hq, _, rfl⟩
    · exact H1 p h
    · obtain ⟨hqa, hqt⟩ := H1 q hq
      exact ⟨addAffiliations_nodup au hqa, setAdd_nodup _ hqt⟩

/-- Folding a list of authors keeps every entry duplicate-free. -/
theorem foldl_authors_entries_nodup (t : String) (l : List Author) :
    ∀ (m : AuthorMap), (∀ p ∈ m, p.2.affiliations.Nodup ∧ p.2.titles.Nodup) →
      ∀ p ∈ l.foldl (processAuthor t) m, p.2.affiliations.Nodup ∧ p.2.titles.Nodup := by
  induction l with
  | nil => intro m H; exact H
  | cons a l ih =>
    intro m H
    rw [List.foldl_cons]
    exact ih _ (processAuthor_entries_nodup t m a H)

/-- Processing an article keeps every entry duplicate-free. -/
theorem processArticle_entries_nodup (kws : List String) (m : AuthorMap) (a : JsArticle)
    (H : ∀ p ∈ m, p.2.affiliations.Nodup ∧ p.2.titles.Nodup) :
    ∀ p ∈ processArticle kws m a, p.2.affiliations.Nodup ∧ p.2.titles.Nodup := by
  unfold processArticle
  by_cases hv : validateArticleData kws a
  · rw [if_pos hv]
    rcases a.articleTitle with _ | tl
    · exact H
    · rcases a.authorList with _ | authors
      · exact H
      · exact foldl_authors_entries_nodup _ _ m H
  · rw [if_neg hv]
    exact H

/-- Every entry of the aggregate built by `extractAuthorInfo` has
duplicate-free affiliation and title sets. -/
theorem extract_entries_nodup (kws : List String) (articles : List JsArticle) :
    ∀ p ∈ extractAuthorInfo kws articles, p.2.affiliations.Nodup ∧ p.2.titles.Nodup := by
  unfold extractAuthorInfo
  generalize hM : ([] : AuthorMap) = M
  have H : ∀ p ∈ M, p.2.affiliations.Nodup ∧ p.2.titles.Nodup := by
    intro p hp
    rw [← hM] at hp
    exact absurd hp (List.not_mem_nil p)
  clear hM
  induction articles generalizing M with
  | nil => exact H
  | cons a l ih =>
    rw [List.foldl_cons]
    exact ih _ (processArticle_entries_nodup kws M a H)

/-- Re-processing an author whose contributions are already recorded is
a no-op. -/
theorem processAuthor_noop (t : String) (m : AuthorMap) (au : Author) (e : AuthorEntry)
    (hf : amFind m (formatAuthorName au) = some e)
    (ht : setAdd e.titles t = e.titles)
    (ha : addAffiliations au e.affiliations = e.affiliations) :
    processAuthor t m au = m := by
  unfold processAuthor
  by_cases hname : formatAuthorName au = ""
  · rw [if_pos hname]
  · rw [if_neg hname, if_pos (by simp [hf])]
    refine amUpdate_noop m _ _ e hf ?_
    show (⟨addAffiliations au e.affiliations, setAdd e.titles t⟩ : AuthorEntry) = e
    rw [ha, ht]

/-- After processing an author, its own contributions are recorded. -/
theorem processAuthor_done_self (t : String) (m : AuthorMap) (au : Author) :
    formatAuthorName au = "" ∨
      ∃ e, amFind (processAuthor t m au) (formatAuthorName au) = some e
        ∧ setAdd e.titles t = e.titles
        ∧ addAffiliations au e.affiliations = e.affiliations := by
  by_cases hname : formatAuthorName au = ""
  · exact Or.inl hname
  · refine Or.inr ?_
    unfold processAuthor
    rw [if_neg hname, amFind_amUpdate, if_pos rfl]
    by_cases hm : (amFind m (formatAuthorName au)).isSome
    · obtain ⟨e0, he0⟩ := Option.isSome_iff_exists.mp hm
      rw [if_pos hm, he0]
      exact ⟨_, rfl, setAdd_idem _ _, addAffiliations_idem au _⟩
    · rw [if_neg hm, amFind_append_single, if_neg hm, if_pos rfl]
      refine ⟨_, rfl, ?_, ?_⟩
      · dsimp only
        exact setAdd_idem _ _
      · dsimp only
        exact addAffiliations_idem au _

/-- Processing one author keeps any other author's recorded
contributions recorded. -/
theorem processAuthor_done_mono (t : String) (m : AuthorMap) (au au' : Author)
    (hd : formatAuthorName au' = "" ∨
      ∃ e, amFind m (formatAuthorName au') = some e
        ∧ setAdd e.titles t = e.titles
        ∧ addAffiliations au' e.affiliations = e.affiliations) :
    formatAuthorName au' = "" ∨
      ∃ e, amFind (processAuthor t m au) (formatAuthorName au') = some e
        ∧ setAdd e.titles t = e.titles
        ∧ addAffiliations au' e.affiliations = e.affiliations := by
  rcases hd with h | ⟨e, hf, ht, ha⟩
  · exact Or.inl h
  · refine Or.inr ?_
    unfold processAuthor
    by_cases hname : formatAuthorName au = ""
    · rw [if_pos hname]
      exact ⟨e, hf, ht, ha⟩
    · rw [if_neg hname, amFind_amUpdate]
      by_cases heq : formatAuthorName au' = formatAuthorName au
      · rw [if_pos heq]
        have hf' : amFind m (formatAuthorName au) = some e := heq ▸ hf
        rw [if_pos (by simp [hf']), hf']
        refine ⟨_, rfl, setAdd_idem _ _, ?_⟩
        show addAffiliations au' (addAffiliations au e.affiliations)
            = addAffiliations au e.affiliations
        exact addAffiliations_noop_mono au' au e.affiliations ha
      · rw [if_neg heq]
        by_cases hm : (amFind m (formatAuthorName au)).isSome
        · rw [if_pos hm]
          exact ⟨e, hf, ht, ha⟩
        · rw [if_neg hm, amFind_append_single]
          refine ⟨e, ?_, ht, ha⟩
          simp [hf]

/-- Folding a list of authors keeps recorded contributions recorded. -/
theorem foldl_authors_done_mono (t : String) (l : List Author) :
    ∀ (m : AuthorMap) (au' : Author),
      (formatAuthorName au' = "" ∨
        ∃ e, amFind m (formatAuthorName au') = some e
          ∧ setAdd e.titles t = e.titles
          ∧ addAffiliations au' e.affiliations = e.affiliations) →
      (formatAuthorName au' = "" ∨
        ∃ e, amFind (l.foldl (processAuthor t) m) (formatAuthorName au') = some e
          ∧ setAdd e.titles t = e.titles
          ∧ addAffiliations au' e.affiliations = e.affiliations) := by
  induction l with
  | nil => intro m au' h; exact h
  | cons a l ih =>
    intro m au' h
    rw [List.foldl_cons]
    exact ih _ au' (processAuthor_done_mono t m a au' h)

/-- After folding a list of authors every author of the list has its
contributions recorded. -/
theorem foldl_authors_done_all (t : String) (l : List Author) :
    ∀ (m : AuthorMap), ∀ au ∈ l,
      (formatAuthorName au = "" ∨
        ∃ e, amFind (l.foldl (processAuthor t) m) (formatAuthorName au) = some e
          ∧ setAdd e.titles t = e.titles
          ∧ addAffiliations au e.affiliations = e.affiliations) := by
  induction l with
  | nil => intro m au hau; exact absurd hau (List.not_mem_nil au)
  | cons a l ih =>
    intro m au hau
    rw [List.foldl_cons]
    rcases List.mem_cons.mp hau with rfl | hau'
    · exact foldl_authors_done_mono t l _ au (processAuthor_done_self t m au)
    · exact ih _ au hau'

/-- Folding a list of authors whose contributions are all recorded is a
no-op. -/
theorem foldl_authors_noop (t : String) (l : List Author) :
    ∀ (m : AuthorMap),
      (∀ au ∈ l,
        formatAuthorName au = "" ∨
          ∃ e, amFind m (formatAuthorName au) = some e
            ∧ setAdd e.titles t = e.titles
            ∧ addAffiliations au e.affiliations = e.affiliations) →
      l.foldl (processAuthor t) m = m := by
  induction l with
  | nil => intro m _; rfl
  | cons a l ih =>
    intro m h
    rw [List.foldl_cons]
    have hstep : processAuthor t m a = m := by
      rcases h a (List.mem_cons_self a l) with hname | ⟨e, hf, ht, ha⟩
      · unfold processAuthor
        rw [if_pos hname]
      · exact processAuthor_noop t m a e hf ht ha
    rw [hstep]
    exact ih m fun au hau => h au (List.mem_cons_of_mem a hau)

/-- Folding the same author list twice equals folding it once. -/
theorem foldl_authors_idem (t : String) (l : List Author) (m : AuthorMap) :
    l.foldl (processAuthor t) (l.foldl (processAuthor t) m) = l.foldl (processAuthor t) m :=
  foldl_authors_noop t l _ (foldl_authors_done_all t l m)

/-- Processing the same article twice yields the same aggregate as
processing it once. -/
theorem processArticle_idem (kws : List String) (m : AuthorMap) (a : JsArticle) :
    processArticle kws (processArticle kws m a) a = processArticle kws m a := by
  by_cases hv : validateArticleData kws a
  · unfold processArticle
    simp only [hv, if_true]
    rcases a.articleTitle with _ | tl
    · rfl
    · rcases a.authorList with _ | authors
      · rfl
      · exact foldl_authors_idem _ authors.toList m
  · have hv' : validateArticleData kws a = false := by simpa using hv
    unfold processArticle
    simp [hv']

/-- C9: in the aggregate built by `extractAuthorInfo`, the affiliation
set and the title set of every entry never contain duplicates, and
aggregation is idempotent per article: processing the same validated
article twice yields the same aggregate as processing it once. -/
theorem claimC9_set_semantics :
    (∀ (kws : List String) (articles : List JsArticle) (n : String) (e : AuthorEntry),
        amFind (extractAuthorInfo kws articles) n = some e →
        e.affiliations.Nodup ∧ e.titles.Nodup)
  ∧ (∀ (kws : List String) (pre : List JsArticle) (a : JsArticle),
        validateArticleData kws a = true →
        extractAuthorInfo kws (pre ++ [a, a]) = extractAuthorInfo kws (pre ++ [a])) := by
  constructor
  · intro kws articles n e hf
    exact extract_entries_nodup kws articles (n, e) (amFind_mem _ n e hf)
  · intro kws pre a _
    unfold extractAuthorInfo
    rw [List.foldl_append, List.foldl_append]
    simp only [List.foldl_cons, List.foldl_nil]
    exact processArticle_idem kws _ a

/-- Witness for C9 on the spec's end-to-end example: the Jane Smith
entry is duplicate-free and duplicating the article leaves the aggregate
unchanged. -/
theorem claimC9_witness :
    ((⟨["MIT"], ["a study of gene x regulation (2020)"]⟩ : AuthorEntry).affiliations.Nodup
      ∧ (⟨["MIT"], ["a study of gene x regulation (2020)"]⟩ : AuthorEntry).titles.Nodup)
  ∧ extractAuthorInfo ["gene"] ([] ++ [articleGene, articleGene])
      = extractAuthorInfo ["gene"] ([] ++ [articleGene]) :=
  ⟨claimC9_set_semantics.1 ["gene"] [articleGene] "Jane Smith"
      ⟨["MIT"], ["a study of gene x regulation (2020)"]⟩ (by decide),
   claimC9_set_semantics.2 ["gene"] [] articleGene (by decide)⟩
